import Mathlib

/-!
Verification of the `streams` lazy-sequence library (`src/Streams.h`).

The C++ library builds a chain of "extractor" stages, each implementing the
two-operation contract `advance : () → bool` / `get : () → pointer`.  The
template nesting of the extractor types is static, while each stage carries
mutable members (the sequence cursor, skip/take counters, the
`skipping`/`taking` flags).  We mirror this split exactly:

* `Shape` is the static chain: which stages are stacked, with their immutable
  members (the underlying sequence, predicates, the map function);
* `State sh` is the tuple of mutable members of every stage of the chain;
* `advance`/`get` are the two contract operations, translated stage by stage
  from `advance_impl`/`get_impl` in the source.

Machine details of the translation:

* iterators into the underlying container become indices into a `List`;
  the `SequenceStreamExtractor` members `current`/`next` become the two `Nat`
  components of its state, with `begin = 0` and `end = xs.length`, and the
  iterator comparison `next != end` is rendered as `next < xs.length`
  (a valid iterator never moves past `end`);
* `get` in C++ returns a pointer that the callers dereference.  Dereferencing
  is only defined after a successful `advance`; we make `get` total by
  returning an `Option` and let the (unreachable in any verified execution)
  `none` case stand for the undefined behaviour of dereferencing a bad
  pointer;
* `MapStreamExtractor::get_impl` runs `mapFunc` and stores the result in the
  stage-owned `value` slot; `InspectStreamExtractor::get_impl` runs the
  inspector callback.  To reason about how often these user functions are
  invoked, the map and inspect stages carry a call counter in their state,
  incremented exactly where the C++ code invokes the user function.  The
  inspector callback itself is observation-only, so only its invocation count
  is modelled;
* the `while` loops inside `SkipWhileStreamExtractor::advance_impl` and
  `FilterStreamExtractor::advance_impl` consume at least one upstream element
  per iteration, so they terminate on every finite sequence; we render them
  as fuel-indexed loops and always supply fuel `rem + 1`, where `rem` bounds
  the number of elements the underlying sequence can still produce (we prove
  below that this fuel is never exhausted).
-/

namespace Streams

/-- Static description of an extractor chain: one constructor per extractor
template of `src/Streams.h`, holding the immutable members (the underlying
sequence for `SequenceStreamExtractor`, the predicates of
skipWhile/takeWhile/filter, the map function). -/
inductive Shape : Type → Type 1 where
  | seq {α : Type} (xs : List α) : Shape α
  | skipFirst {α : Type} (source : Shape α) : Shape α
  | skipWhile {α : Type} (predicate : α → Bool) (source : Shape α) : Shape α
  | take {α : Type} (source : Shape α) : Shape α
  | takeWhile {α : Type} (predicate : α → Bool) (source : Shape α) : Shape α
  | filter {α : Type} (predicate : α → Bool) (source : Shape α) : Shape α
  | map {α β : Type} (mapFunc : α → β) (source : Shape α) : Shape β
  | inspect {α : Type} (source : Shape α) : Shape α

/-- Mutable members of every stage of a chain: `current`/`next` indices of the
sequence extractor, `skipCount` of SkipFirst, the `skipping` flag of
SkipWhile, `limit` of Take, the `taking` flag of TakeWhile, and the call
counters instrumenting the map/inspect user functions. -/
def State : {α : Type} → Shape α → Type
  | _, .seq _ => Nat × Nat
  | _, .skipFirst src => Nat × State src
  | _, .skipWhile _ src => Bool × State src
  | _, .take src => Nat × State src
  | _, .takeWhile _ src => Bool × State src
  | _, .filter _ src => State src
  | _, .map _ src => Nat × State src
  | _, .inspect src => Nat × State src

/-- Number of elements the underlying sequence extractor can still produce:
`end - next` for the bottom `SequenceStreamExtractor`.  Used only as a fuel
bound for the translated `while` loops. -/
def rem : {α : Type} → (sh : Shape α) → State sh → Nat
  | _, .seq xs => fun s => xs.length - s.2
  | _, .skipFirst src => fun s => rem src s.2
  | _, .skipWhile _ src => fun s => rem src s.2
  | _, .take src => fun s => rem src s.2
  | _, .takeWhile _ src => fun s => rem src s.2
  | _, .filter _ src => fun s => rem src s
  | _, .map _ src => fun s => rem src s.2
  | _, .inspect src => fun s => rem src s.2

/-- The `get_impl` of each stage.  The sequence extractor returns the element
at `current`; skip/take/filter stages forward `source.get()`; the map stage
computes `mapFunc(*source.get())` (counting the invocation); the inspect
stage runs the inspector on `*source.get()` (counting the invocation) and
forwards the value. -/
def get : {α : Type} → (sh : Shape α) → State sh → Option α × State sh
  | _, .seq xs => fun s => (xs[s.1]?, s)
  | _, .skipFirst src => fun s =>
      let r := get src s.2
      (r.1, (s.1, r.2))
  | _, .skipWhile _ src => fun s =>
      let r := get src s.2
      (r.1, (s.1, r.2))
  | _, .take src => fun s =>
      let r := get src s.2
      (r.1, (s.1, r.2))
  | _, .takeWhile _ src => fun s =>
      let r := get src s.2
      (r.1, (s.1, r.2))
  | _, .filter _ src => fun s => get src s
  | _, .map f src => fun s =>
      let r := get src s.2
      match r.1 with
      | some x => (some (f x), (s.1 + 1, r.2))
      | none => (none, (s.1, r.2))
  | _, .inspect src => fun s =>
      let r := get src s.2
      match r.1 with
      | some x => (some x, (s.1 + 1, r.2))
      | none => (none, (s.1, r.2))

/-- Loop of `SkipFirstStreamExtractor::advance_impl`:
`while (skipCount != 0) { --skipCount; if (!source.advance()) return false; }
return source.advance();`.  Returns the advance result, the final
`skipCount`, and the final source state. -/
def skipLoop {σ : Type} (adv : σ → Bool × σ) : Nat → σ → Bool × Nat × σ
  | 0, s =>
      let r := adv s
      (r.1, 0, r.2)
  | k + 1, s =>
      let r := adv s
      if r.1 then skipLoop adv k r.2 else (false, k, r.2)

/-- Loop of `SkipWhileStreamExtractor::advance_impl` in skipping mode:
`while (skipping && source.advance()) { skipping = predicate(*source.get()); }`.
Returns the final `skipping` flag and source state.  The `none` branch of the
dereference and the fuel-exhaustion case are unreachable (proved below). -/
def skipWhileLoop {α σ : Type} (adv : σ → Bool × σ) (g : σ → Option α × σ)
    (p : α → Bool) : Nat → σ → Bool × σ
  | 0, s => (true, s)
  | fuel + 1, s =>
      let r := adv s
      if r.1 then
        let gv := g r.2
        match gv.1 with
        | some x =>
            if p x then skipWhileLoop adv g p fuel gv.2 else (false, gv.2)
        | none => skipWhileLoop adv g p fuel gv.2
      else (true, r.2)

/-- Loop of `FilterStreamExtractor::advance_impl`:
`if (!source.advance()) return false; auto element = source.get();
while (!predicate(*element)) { if (source.advance()) element = source.get();
else return false; } return true;`.  The `none` dereference branch and the
fuel-exhaustion case are unreachable (proved below). -/
def filterLoop {α σ : Type} (adv : σ → Bool × σ) (g : σ → Option α × σ)
    (p : α → Bool) : Nat → σ → Bool × σ
  | 0, s => (false, s)
  | fuel + 1, s =>
      let r := adv s
      if r.1 then
        let gv := g r.2
        match gv.1 with
        | some x =>
            if p x then (true, gv.2) else filterLoop adv g p fuel gv.2
        | none => (true, gv.2)
      else (false, r.2)

/-- The `advance_impl` of each stage, translated case by case from
`src/Streams.h`:

* `SequenceStreamExtractor`: `if (next != end) { current = next++;
  return true; } else { return false; }`;
* `SkipFirstStreamExtractor`: the `skipLoop` above;
* `SkipWhileStreamExtractor`: in skipping mode run `skipWhileLoop` and return
  `!skipping`; afterwards delegate `source.advance()`;
* `TakeStreamExtractor`: `if (limit != 0) { --limit;
  return source.advance(); } return false;`;
* `TakeWhileStreamExtractor`:
  `taking &= taking && source.advance() && predicate(*source.get());
  return taking;` with the C++ short-circuit evaluation made explicit;
* `FilterStreamExtractor`: the `filterLoop` above;
* `MapStreamExtractor`/`InspectStreamExtractor`: `return source.advance();`. -/
def advance : {α : Type} → (sh : Shape α) → State sh → Bool × State sh
  | _, .seq xs => fun s =>
      if s.2 < xs.length then (true, (s.2, s.2 + 1)) else (false, s)
  | _, .skipFirst src => fun s =>
      let r := skipLoop (advance src) s.1 s.2
      (r.1, r.2)
  | _, .skipWhile p src => fun s =>
      if s.1 then
        let r := skipWhileLoop (advance src) (get src) p (rem src s.2 + 1) s.2
        (!r.1, (r.1, r.2))
      else
        let r := advance src s.2
        (r.1, (s.1, r.2))
  | _, .take src => fun s =>
      if s.1 ≠ 0 then
        let r := advance src s.2
        (r.1, (s.1 - 1, r.2))
      else (false, (0, s.2))
  | _, .takeWhile p src => fun s =>
      if s.1 then
        let r := advance src s.2
        if r.1 then
          let gv := get src r.2
          match gv.1 with
          | some x => (p x, (p x, gv.2))
          | none => (true, (true, gv.2))
        else (false, (false, r.2))
      else (false, (false, s.2))
  | _, .filter p src => fun s => filterLoop (advance src) (get src) p (rem src s + 1) s
  | _, .map _ src => fun s =>
      let r := advance src s.2
      (r.1, (s.1, r.2))
  | _, .inspect src => fun s =>
      let r := advance src s.2
      (r.1, (s.1, r.2))

/-- Denotation of an extractor state: the list of elements the chain will
emit from this state on, used as the specification against which the
stateful code is verified. -/
def model : {α : Type} → (sh : Shape α) → State sh → List α
  | _, .seq xs => fun s => xs.drop s.2
  | _, .skipFirst src => fun s => (model src s.2).drop s.1
  | _, .skipWhile p src => fun s =>
      if s.1 then (model src s.2).dropWhile p else model src s.2
  | _, .take src => fun s => (model src s.2).take s.1
  | _, .takeWhile p src => fun s =>
      if s.1 then (model src s.2).takeWhile p else []
  | _, .filter p src => fun s => (model src s).filter p
  | _, .map f src => fun s => (model src s.2).map f
  | _, .inspect src => fun s => model src s.2

/-- A stream handle (`BaseStreamInterface`): a chain shape together with the
current mutable state of all of its stages. -/
structure Handle (α : Type) : Type 1 where
  shape : Shape α
  state : State shape

/-- The list of elements a handle will still emit. -/
def Handle.model {α : Type} (h : Handle α) : List α :=
  Streams.model h.shape h.state

/-- Fuel bound for the terminal-operation loops on a handle. -/
def Handle.rem {α : Type} (h : Handle α) : Nat :=
  Streams.rem h.shape h.state

/-- `streams::from`: wraps a container in a sequence extractor with
`current = next = begin`. -/
def fromList {α : Type} (xs : List α) : Handle α :=
  ⟨.seq xs, (0, 0)⟩

/-- `BaseStreamInterface::map`: wrap the current extractor in a
`MapStreamExtractor` (invocation counter starts at 0). -/
def Handle.mapS {α β : Type} (h : Handle α) (f : α → β) : Handle β :=
  ⟨.map f h.shape, (0, h.state)⟩

/-- `BaseStreamInterface::filter`. -/
def Handle.filterS {α : Type} (h : Handle α) (p : α → Bool) : Handle α :=
  ⟨.filter p h.shape, h.state⟩

/-- `BaseStreamInterface::skip`: `skipCount` starts at the requested count. -/
def Handle.skipS {α : Type} (h : Handle α) (n : Nat) : Handle α :=
  ⟨.skipFirst h.shape, (n, h.state)⟩

/-- `BaseStreamInterface::skipWhile`: the `skipping` flag starts `true`. -/
def Handle.skipWhileS {α : Type} (h : Handle α) (p : α → Bool) : Handle α :=
  ⟨.skipWhile p h.shape, (true, h.state)⟩

/-- `BaseStreamInterface::take`: `limit` starts at the requested count. -/
def Handle.takeS {α : Type} (h : Handle α) (n : Nat) : Handle α :=
  ⟨.take h.shape, (n, h.state)⟩

/-- `BaseStreamInterface::takeWhile`: the `taking` flag starts `true`. -/
def Handle.takeWhileS {α : Type} (h : Handle α) (p : α → Bool) : Handle α :=
  ⟨.takeWhile p h.shape, (true, h.state)⟩

/-- `BaseStreamInterface::inspect` (invocation counter starts at 0). -/
def Handle.inspectS {α : Type} (h : Handle α) : Handle α :=
  ⟨.inspect h.shape, (0, h.state)⟩

/-- `BaseStreamInterface::next`:
`if (extractor.advance()) { return { *extractor.get() }; } return {};`. -/
def Handle.next {α : Type} (h : Handle α) : Option α × Handle α :=
  let r := advance h.shape h.state
  if r.1 then
    let gv := get h.shape r.2
    (gv.1, ⟨h.shape, gv.2⟩)
  else (none, ⟨h.shape, r.2⟩)

/-- `BaseStreamInterface::nth`:
`while (n && extractor.advance()) --n; return next();`. -/
def Handle.nth {α : Type} (h : Handle α) : Nat → Option α × Handle α
  | 0 => h.next
  | n + 1 =>
      let r := advance h.shape h.state
      if r.1 then Handle.nth ⟨h.shape, r.2⟩ n else Handle.next ⟨h.shape, r.2⟩

/-- Loop of `BaseStreamInterface::count`:
`size_t counter = 0; while (extractor.advance()) ++counter; return counter;`.
Only `advance` is ever called, never `get`. -/
def countLoop {σ : Type} (adv : σ → Bool × σ) : Nat → σ → Nat × σ
  | 0, s => (0, s)
  | fuel + 1, s =>
      let r := adv s
      if r.1 then
        let c := countLoop adv fuel r.2
        (c.1 + 1, c.2)
      else (0, r.2)

/-- `BaseStreamInterface::count` (the returned handle models the spent
stream object the C++ member call leaves behind). -/
def Handle.count {α : Type} (h : Handle α) : Nat × Handle α :=
  let r := countLoop (advance h.shape) (h.rem + 1) h.state
  (r.1, ⟨h.shape, r.2⟩)

/-- Loop of `BaseStreamInterface::collect`:
`while (extractor.advance()) container.push_back(*extractor.get());`. -/
def collectLoop {α σ : Type} (adv : σ → Bool × σ) (g : σ → Option α × σ) :
    Nat → σ → List α × σ
  | 0, s => ([], s)
  | fuel + 1, s =>
      let r := adv s
      if r.1 then
        let gv := g r.2
        let rest := collectLoop adv g fuel gv.2
        match gv.1 with
        | some x => (x :: rest.1, rest.2)
        | none => (rest.1, rest.2)
      else ([], r.2)

/-- `BaseStreamInterface::collect` (into a list, in emission order). -/
def Handle.collect {α : Type} (h : Handle α) : List α × Handle α :=
  let r := collectLoop (advance h.shape) (get h.shape) (h.rem + 1) h.state
  (r.1, ⟨h.shape, r.2⟩)

/-- Loop of `BaseStreamInterface::all`:
`while (extractor.advance()) { if (!predicate(*extractor.get()))
return false; } return true;`. -/
def allLoop {α σ : Type} (adv : σ → Bool × σ) (g : σ → Option α × σ)
    (p : α → Bool) : Nat → σ → Bool × σ
  | 0, s => (true, s)
  | fuel + 1, s =>
      let r := adv s
      if r.1 then
        let gv := g r.2
        match gv.1 with
        | some x => if p x then allLoop adv g p fuel gv.2 else (false, gv.2)
        | none => allLoop adv g p fuel gv.2
      else (true, r.2)

/-- `BaseStreamInterface::all`. -/
def Handle.allS {α : Type} (h : Handle α) (p : α → Bool) : Bool × Handle α :=
  let r := allLoop (advance h.shape) (get h.shape) p (h.rem + 1) h.state
  (r.1, ⟨h.shape, r.2⟩)

/-- Iterated `next`-and-drop-the-element: the handle left after `k` further
`next()` calls. -/
def Handle.afterNexts {α : Type} (h : Handle α) : Nat → Handle α
  | 0 => h
  | k + 1 => Handle.afterNexts (h.next).2 k

/-- Projection of the invocation counter of a map stage. -/
def mapCalls {α β : Type} {f : α → β} {src : Shape α}
    (s : State (Shape.map f src)) : Nat := s.1

/-- Projection of the invocation counter of an inspect stage. -/
def inspectCalls {α : Type} {src : Shape α}
    (s : State (Shape.inspect src)) : Nat := s.1

/-- Behavioural contract of the `advance`/`get` pair of an extractor, stated
against an abstract denotation `m` (the elements still to be emitted) and the
fuel measure `r`:

* `get` changes neither the measure, the denotation, nor its own value
  (it only bumps instrumentation counters);
* `advance` never increases the measure, and strictly decreases it whenever
  it succeeds;
* a failing `advance` means the denotation is empty, before and after;
* a successful `advance` consumes exactly the head of the denotation, and
  `get` then returns that head. -/
structure GoodFns {α σ : Type} (adv : σ → Bool × σ) (g : σ → Option α × σ)
    (r : σ → Nat) (m : σ → List α) : Prop where
  r_get : ∀ s, r (g s).2 = r s
  m_get : ∀ s, m (g s).2 = m s
  v_get : ∀ s, (g (g s).2).1 = (g s).1
  r_adv : ∀ s, r (adv s).2 ≤ r s
  r_adv_lt : ∀ s, (adv s).1 = true → r (adv s).2 < r s
  adv_false : ∀ s, (adv s).1 = false → m s = [] ∧ m (adv s).2 = []
  adv_true : ∀ s, (adv s).1 = true →
    ∃ x, (g (adv s).2).1 = some x ∧ m s = x :: m (adv s).2

/-- An extractor chain satisfies the behavioural contract relative to its
list denotation `model` and fuel measure `rem`. -/
def GoodShape {α : Type} (sh : Shape α) : Prop :=
  GoodFns (advance sh) (get sh) (rem sh) (model sh)

theorem skipLoop_spec {α σ : Type} {adv : σ → Bool × σ} {g : σ → Option α × σ}
    {r : σ → Nat} {m : σ → List α} (G : GoodFns adv g r m) :
    ∀ (k : Nat) (s : σ),
      ((skipLoop adv k s).1 = true →
        (skipLoop adv k s).2.1 = 0 ∧
        ∃ x, (g (skipLoop adv k s).2.2).1 = some x ∧
          (m s).drop k = x :: m (skipLoop adv k s).2.2) ∧
      ((skipLoop adv k s).1 = false →
        (m s).drop k = [] ∧ m (skipLoop adv k s).2.2 = []) ∧
      r (skipLoop adv k s).2.2 ≤ r s ∧
      ((skipLoop adv k s).1 = true → r (skipLoop adv k s).2.2 < r s) := by
  intro k
  induction k with
  | zero =>
      intro s
      simp only [skipLoop]
      refine ⟨fun ht => ?_, fun hf => ?_, G.r_adv s, fun ht => G.r_adv_lt s ht⟩
      · obtain ⟨x, hx, hm⟩ := G.adv_true s ht
        exact ⟨trivial, x, hx, by simpa using hm⟩
      · obtain ⟨h1, h2⟩ := G.adv_false s hf
        simpa [h1] using h2
  | succ k ih =>
      intro s
      simp only [skipLoop]
      cases hb : (adv s).1 with
      | true =>
          simp only [reduceIte]
          obtain ⟨x, hx, hm⟩ := G.adv_true s hb
          obtain ⟨iht, ihf, ihle, ihlt⟩ := ih (adv s).2
          have hdrop : (m s).drop (k + 1) = (m (adv s).2).drop k := by
            rw [hm, List.drop_succ_cons]
          have hlt := G.r_adv_lt s hb
          exact ⟨fun ht => by rw [hdrop]; exact iht ht,
            fun hf => by rw [hdrop]; exact ihf hf,
            le_of_lt (lt_of_le_of_lt ihle hlt),
            fun _ => lt_of_le_of_lt ihle hlt⟩
      | false =>
          simp only [Bool.false_eq_true, if_false]
          obtain ⟨h1, h2⟩ := G.adv_false s hb
          exact ⟨fun ht => by simp at ht,
            fun _ => ⟨by simp [h1], h2⟩, G.r_adv s, fun ht => by simp at ht⟩

theorem skipWhileLoop_spec {α σ : Type} {adv : σ → Bool × σ}
    {g : σ → Option α × σ} {r : σ → Nat} {m : σ → List α}
    (G : GoodFns adv g r m) (p : α → Bool) :
    ∀ (fuel : Nat) (s : σ), r s < fuel →
      ((skipWhileLoop adv g p fuel s).1 = false →
        ∃ x, (g (skipWhileLoop adv g p fuel s).2).1 = some x ∧ p x = false ∧
          (m s).dropWhile p = x :: m (skipWhileLoop adv g p fuel s).2) ∧
      ((skipWhileLoop adv g p fuel s).1 = true →
        (m s).dropWhile p = [] ∧ m (skipWhileLoop adv g p fuel s).2 = []) ∧
      r (skipWhileLoop adv g p fuel s).2 ≤ r s ∧
      ((skipWhileLoop adv g p fuel s).1 = false →
        r (skipWhileLoop adv g p fuel s).2 < r s) := by
  intro fuel
  induction fuel with
  | zero => intro s hs; omega
  | succ fuel ih =>
      intro s hs
      simp only [skipWhileLoop]
      cases hb : (adv s).1 with
      | false =>
          simp only [Bool.false_eq_true, if_false]
          obtain ⟨h1, h2⟩ := G.adv_false s hb
          exact ⟨fun hf => by simp at hf, fun _ => ⟨by simp [h1], h2⟩,
            G.r_adv s, fun hf => by simp at hf⟩
      | true =>
          simp only [reduceIte]
          obtain ⟨x, hx, hm⟩ := G.adv_true s hb
          simp only [hx]
          have hrg : r (g (adv s).2).2 = r (adv s).2 := G.r_get (adv s).2
          have hmg : m (g (adv s).2).2 = m (adv s).2 := G.m_get (adv s).2
          have hlt := G.r_adv_lt s hb
          cases hp : p x with
          | true =>
              simp only [reduceIte]
              obtain ⟨ihf, iht, ihle, ihlt⟩ := ih (g (adv s).2).2 (by omega)
              have hdw : (m s).dropWhile p = (m (g (adv s).2).2).dropWhile p := by
                rw [hmg, hm, List.dropWhile_cons, hp]
                simp
              exact ⟨fun hf => by rw [hdw]; exact ihf hf,
                fun ht => by rw [hdw]; exact iht ht,
                by omega, fun _ => by omega⟩
          | false =>
              simp only [Bool.false_eq_true, if_false]
              refine ⟨fun _ => ⟨x, ?_, hp, ?_⟩, fun ht => by simp at ht,
                by omega, fun _ => by omega⟩
              · rw [G.v_get (adv s).2, hx]
              · rw [hm, List.dropWhile_cons, hp, hmg]
                simp

theorem filterLoop_spec {α σ : Type} {adv : σ → Bool × σ}
    {g : σ → Option α × σ} {r : σ → Nat} {m : σ → List α}
    (G : GoodFns adv g r m) (p : α → Bool) :
    ∀ (fuel : Nat) (s : σ), r s < fuel →
      ((filterLoop adv g p fuel s).1 = true →
        ∃ x, (g (filterLoop adv g p fuel s).2).1 = some x ∧ p x = true ∧
          (m s).filter p = x :: (m (filterLoop adv g p fuel s).2).filter p) ∧
      ((filterLoop adv g p fuel s).1 = false →
        (m s).filter p = [] ∧ m (filterLoop adv g p fuel s).2 = []) ∧
      r (filterLoop adv g p fuel s).2 ≤ r s ∧
      ((filterLoop adv g p fuel s).1 = true →
        r (filterLoop adv g p fuel s).2 < r s) := by
  intro fuel
  induction fuel with
  | zero => intro s hs; omega
  | succ fuel ih =>
      intro s hs
      simp only [filterLoop]
      cases hb : (adv s).1 with
      | false =>
          simp only [Bool.false_eq_true, if_false]
          obtain ⟨h1, h2⟩ := G.adv_false s hb
          exact ⟨fun ht => by simp at ht, fun _ => ⟨by simp [h1], h2⟩,
            G.r_adv s, fun ht => by simp at ht⟩
      | true =>
          simp only [reduceIte]
          obtain ⟨x, hx, hm⟩ := G.adv_true s hb
          simp only [hx]
          have hrg : r (g (adv s).2).2 = r (adv s).2 := G.r_get (adv s).2
          have hmg : m (g (adv s).2).2 = m (adv s).2 := G.m_get (adv s).2
          have hlt := G.r_adv_lt s hb
          cases hp : p x with
          | true =>
              simp only [reduceIte]
              refine ⟨fun _ => ⟨x, ?_, hp, ?_⟩, fun hf => by simp at hf,
                by omega, fun _ => by omega⟩
              · rw [G.v_get (adv s).2, hx]
              · rw [hm, List.filter_cons, hp, hmg]
                simp
          | false =>
              simp only [Bool.false_eq_true, if_false]
              obtain ⟨iht, ihf, ihle, ihlt⟩ := ih (g (adv s).2).2 (by omega)
              have hfl : (m s).filter p = (m (g (adv s).2).2).filter p := by
                rw [hmg, hm, List.filter_cons, hp]
                simp
              exact ⟨fun ht => by rw [hfl]; exact iht ht,
                fun hf => by rw [hfl]; exact ihf hf,
                by omega, fun _ => by omega⟩

theorem good_seq {α : Type} (xs : List α) : GoodShape (.seq xs) := by
  refine ⟨fun s => rfl, fun s => rfl, fun s => rfl, fun s => ?_, fun s h => ?_,
    fun s h => ?_, fun s h => ?_⟩
  · by_cases hc : s.2 < xs.length
    · simp only [advance, if_pos hc, rem]
      omega
    · simp only [advance, if_neg hc, rem]
      omega
  · by_cases hc : s.2 < xs.length
    · simp only [advance, if_pos hc, rem]
      omega
    · simp only [advance, if_neg hc] at h
      simp at h
  · by_cases hc : s.2 < xs.length
    · simp only [advance, if_pos hc] at h
      simp at h
    · have hge : xs.length ≤ s.2 := by omega
      simp only [advance, if_neg hc, model]
      simp [List.drop_eq_nil_of_le hge]
  · by_cases hc : s.2 < xs.length
    · simp only [advance, if_pos hc, model, get]
      refine ⟨xs[s.2], ?_, ?_⟩
      · exact List.getElem?_eq_getElem hc
      · exact List.drop_eq_getElem_cons hc
    · simp only [advance, if_neg hc] at h
      simp at h

theorem good_skipFirst {α : Type} {src : Shape α} (ih : GoodShape src) :
    GoodShape (.skipFirst src) := by
  refine ⟨fun s => ?_, fun s => ?_, fun s => ?_, fun s => ?_, fun s h => ?_,
    fun s h => ?_, fun s h => ?_⟩
  · simp only [get, rem]
    exact ih.r_get s.2
  · simp only [get, model, ih.m_get]
  · simp only [get]
    exact ih.v_get s.2
  · simp only [advance, rem]
    exact (skipLoop_spec ih s.1 s.2).2.2.1
  · simp only [advance, rem] at h ⊢
    exact (skipLoop_spec ih s.1 s.2).2.2.2 h
  · simp only [advance, model] at h ⊢
    obtain ⟨h1, h2⟩ := (skipLoop_spec ih s.1 s.2).2.1 h
    exact ⟨h1, by simp [h2]⟩
  · simp only [advance, model, get] at h ⊢
    obtain ⟨h0, x, hx, hd⟩ := (skipLoop_spec ih s.1 s.2).1 h
    exact ⟨x, hx, by simp [hd, h0]⟩

theorem good_take {α : Type} {src : Shape α} (ih : GoodShape src) :
    GoodShape (.take src) := by
  refine ⟨fun s => ?_, fun s => ?_, fun s => ?_, fun s => ?_, fun s h => ?_,
    fun s h => ?_, fun s h => ?_⟩
  · simp only [get, rem]
    exact ih.r_get s.2
  · simp only [get, model, ih.m_get]
  · simp only [get]
    exact ih.v_get s.2
  · by_cases hn : s.1 = 0
    · simp only [advance, if_neg (not_not_intro hn), rem]
      exact le_refl _
    · simp only [advance, if_pos hn, rem]
      exact ih.r_adv s.2
  · by_cases hn : s.1 = 0
    · simp only [advance, if_neg (not_not_intro hn)] at h
      simp at h
    · simp only [advance, if_pos hn, rem] at h ⊢
      exact ih.r_adv_lt s.2 h
  · by_cases hn : s.1 = 0
    · simp only [advance, if_neg (not_not_intro hn), model, hn]
      simp
    · simp only [advance, if_pos hn, model] at h ⊢
      obtain ⟨h1, h2⟩ := ih.adv_false s.2 h
      simp [h1, h2]
  · by_cases hn : s.1 = 0
    · simp only [advance, if_neg (not_not_intro hn)] at h
      simp at h
    · simp only [advance, if_pos hn, model, get] at h ⊢
      obtain ⟨x, hx, hm⟩ := ih.adv_true s.2 h
      obtain ⟨k, hk⟩ := Nat.exists_eq_succ_of_ne_zero hn
      refine ⟨x, hx, ?_⟩
      rw [hm, hk]
      simp

theorem good_filter {α : Type} {p : α → Bool} {src : Shape α}
    (ih : GoodShape src) : GoodShape (.filter p src) := by
  refine ⟨fun s => ?_, fun s => ?_, fun s => ?_, fun s => ?_, fun s h => ?_,
    fun s h => ?_, fun s h => ?_⟩
  · simp only [get, rem]
    exact ih.r_get s
  · simp only [get, model, ih.m_get]
  · simp only [get]
    exact ih.v_get s
  · simp only [advance, rem]
    exact (filterLoop_spec ih p (rem src s + 1) s (Nat.lt_succ_self _)).2.2.1
  · simp only [advance, rem] at h ⊢
    exact (filterLoop_spec ih p (rem src s + 1) s (Nat.lt_succ_self _)).2.2.2 h
  · simp only [advance, model] at h ⊢
    obtain ⟨h1, h2⟩ := (filterLoop_spec ih p (rem src s + 1) s (Nat.lt_succ_self _)).2.1 h
    exact ⟨h1, by rw [h2]; simp⟩
  · simp only [advance, model, get] at h ⊢
    obtain ⟨x, hx, hpx, hf⟩ := (filterLoop_spec ih p (rem src s + 1) s (Nat.lt_succ_self _)).1 h
    exact ⟨x, hx, hf⟩

theorem good_map {α β : Type} {f : α → β} {src : Shape α}
    (ih : GoodShape src) : GoodShape (.map f src) := by
  refine ⟨fun s => ?_, fun s => ?_, fun s => ?_, fun s => ?_, fun s h => ?_,
    fun s h => ?_, fun s h => ?_⟩
  · cases hg : (get src s.2).1 with
    | some x =>
        simp only [get, hg, rem]
        exact ih.r_get s.2
    | none =>
        simp only [get, hg, rem]
        exact ih.r_get s.2
  · cases hg : (get src s.2).1 with
    | some x => simp only [get, hg, model, ih.m_get]
    | none => simp only [get, hg, model, ih.m_get]
  · have hv := ih.v_get s.2
    cases hg : (get src s.2).1 with
    | some x =>
        rw [hg] at hv
        simp only [get, hg, hv]
    | none =>
        rw [hg] at hv
        simp only [get, hg, hv]
  · simp only [advance, rem]
    exact ih.r_adv s.2
  · simp only [advance, rem] at h ⊢
    exact ih.r_adv_lt s.2 h
  · simp only [advance, model] at h ⊢
    obtain ⟨h1, h2⟩ := ih.adv_false s.2 h
    rw [h1, h2]
    simp
  · simp only [advance, model] at h ⊢
    obtain ⟨x, hx, hm⟩ := ih.adv_true s.2 h
    refine ⟨f x, ?_, ?_⟩
    · simp only [get, hx]
    · rw [hm]
      simp

theorem good_inspect {α : Type} {src : Shape α}
    (ih : GoodShape src) : GoodShape (.inspect src) := by
  refine ⟨fun s => ?_, fun s => ?_, fun s => ?_, fun s => ?_, fun s h => ?_,
    fun s h => ?_, fun s h => ?_⟩
  · cases hg : (get src s.2).1 with
    | some x =>
        simp only [get, hg, rem]
        exact ih.r_get s.2
    | none =>
        simp only [get, hg, rem]
        exact ih.r_get s.2
  · cases hg : (get src s.2).1 with
    | some x => simp only [get, hg, model, ih.m_get]
    | none => simp only [get, hg, model, ih.m_get]
  · have hv := ih.v_get s.2
    cases hg : (get src s.2).1 with
    | some x =>
        rw [hg] at hv
        simp only [get, hg, hv]
    | none =>
        rw [hg] at hv
        simp only [get, hg, hv]
  · simp only [advance, rem]
    exact ih.r_adv s.2
  · simp only [advance, rem] at h ⊢
    exact ih.r_adv_lt s.2 h
  · simp only [advance, model] at h ⊢
    exact ih.adv_false s.2 h
  · simp only [advance, model, get] at h ⊢
    obtain ⟨x, hx, hm⟩ := ih.adv_true s.2 h
    refine ⟨x, ?_, hm⟩
    simp only [hx]

theorem good_takeWhile {α : Type} {p : α → Bool} {src : Shape α}
    (ih : GoodShape src) : GoodShape (.takeWhile p src) := by
  refine ⟨fun s => ?_, fun s => ?_, fun s => ?_, fun s => ?_, fun s h => ?_,
    fun s h => ?_, fun s h => ?_⟩
  · simp only [get, rem]
    exact ih.r_get s.2
  · simp only [get, model, ih.m_get]
  · simp only [get]
    exact ih.v_get s.2
  · obtain ⟨flag, s0⟩ := s
    cases flag with
    | false =>
        simp only [advance, Bool.false_eq_true, if_false, rem]
        exact le_refl _
    | true =>
        simp only [advance, reduceIte]
        cases hb : (advance src s0).1 with
        | false =>
            simp only [Bool.false_eq_true, if_false, rem]
            exact ih.r_adv s0
        | true =>
            simp only [reduceIte]
            obtain ⟨x, hx, hm⟩ := ih.adv_true s0 hb
            simp only [hx, rem]
            have h1 := ih.r_adv s0
            have h2 := ih.r_get (advance src s0).2
            omega
  · obtain ⟨flag, s0⟩ := s
    cases flag with
    | false => simp [advance] at h
    | true =>
        simp only [advance, reduceIte] at h ⊢
        cases hb : (advance src s0).1 with
        | false =>
            rw [hb] at h
            simp at h
        | true =>
            obtain ⟨x, hx, hm⟩ := ih.adv_true s0 hb
            simp only [reduceIte, hx]
            simp only [rem]
            have h1 := ih.r_adv_lt s0 hb
            have h2 := ih.r_get (advance src s0).2
            omega
  · obtain ⟨flag, s0⟩ := s
    cases flag with
    | false =>
        simp only [advance, model, Bool.false_eq_true, if_false]
        simp
    | true =>
        simp only [advance, model, reduceIte] at h ⊢
        cases hb : (advance src s0).1 with
        | false =>
            obtain ⟨h1, h2⟩ := ih.adv_false s0 hb
            simp only [Bool.false_eq_true, if_false]
            rw [h1]
            simp
        | true =>
            rw [hb] at h
            obtain ⟨x, hx, hm⟩ := ih.adv_true s0 hb
            simp only [reduceIte, hx] at h ⊢
            rw [hm, List.takeWhile_cons]
            simp [h]
  · obtain ⟨flag, s0⟩ := s
    cases flag with
    | false => simp [advance] at h
    | true =>
        simp only [advance, model, get, reduceIte] at h ⊢
        cases hb : (advance src s0).1 with
        | false =>
            rw [hb] at h
            simp at h
        | true =>
            rw [hb] at h
            obtain ⟨x, hx, hm⟩ := ih.adv_true s0 hb
            simp only [reduceIte, hx] at h ⊢
            refine ⟨x, ?_, ?_⟩
            · have hv := ih.v_get (advance src s0).2
              rw [hx] at hv
              exact hv
            · simp only [h, reduceIte]
              rw [hm, List.takeWhile_cons, h, ih.m_get]
              simp

theorem good_skipWhile {α : Type} {p : α → Bool} {src : Shape α}
    (ih : GoodShape src) : GoodShape (.skipWhile p src) := by
  refine ⟨fun s => ?_, fun s => ?_, fun s => ?_, fun s => ?_, fun s h => ?_,
    fun s h => ?_, fun s h => ?_⟩
  · simp only [get, rem]
    exact ih.r_get s.2
  · simp only [get, model, ih.m_get]
  · simp only [get]
    exact ih.v_get s.2
  · obtain ⟨flag, s0⟩ := s
    cases flag with
    | false =>
        simp only [advance, Bool.false_eq_true, if_false, rem]
        exact ih.r_adv s0
    | true =>
        simp only [advance, reduceIte, rem]
        exact (skipWhileLoop_spec ih p (rem src s0 + 1) s0 (Nat.lt_succ_self _)).2.2.1
  · obtain ⟨flag, s0⟩ := s
    cases flag with
    | false =>
        simp only [advance, Bool.false_eq_true, if_false, rem] at h ⊢
        exact ih.r_adv_lt s0 h
    | true =>
        simp only [advance, reduceIte, rem] at h ⊢
        cases hw : (skipWhileLoop (advance src) (get src) p (rem src s0 + 1) s0).1 with
        | true =>
            rw [hw] at h
            simp at h
        | false =>
            exact (skipWhileLoop_spec ih p (rem src s0 + 1) s0 (Nat.lt_succ_self _)).2.2.2 hw
  · obtain ⟨flag, s0⟩ := s
    cases flag with
    | false =>
        simp only [advance, model, Bool.false_eq_true, if_false] at h ⊢
        exact ih.adv_false s0 h
    | true =>
        simp only [advance, model, reduceIte] at h ⊢
        cases hw : (skipWhileLoop (advance src) (get src) p (rem src s0 + 1) s0).1 with
        | false =>
            rw [hw] at h
            simp at h
        | true =>
            obtain ⟨h1, h2⟩ := (skipWhileLoop_spec ih p (rem src s0 + 1) s0 (Nat.lt_succ_self _)).2.1 hw
            refine ⟨h1, ?_⟩
            simp only [reduceIte]
            rw [h2]
            simp
  · obtain ⟨flag, s0⟩ := s
    cases flag with
    | false =>
        simp only [advance, model, get, Bool.false_eq_true, if_false] at h ⊢
        exact ih.adv_true s0 h
    | true =>
        simp only [advance, model, get, reduceIte] at h ⊢
        cases hw : (skipWhileLoop (advance src) (get src) p (rem src s0 + 1) s0).1 with
        | true =>
            rw [hw] at h
            simp at h
        | false =>
            obtain ⟨x, hx, hpx, hd⟩ := (skipWhileLoop_spec ih p (rem src s0 + 1) s0 (Nat.lt_succ_self _)).1 hw
            simp only [Bool.false_eq_true, if_false]
            exact ⟨x, hx, hd⟩

theorem good {α : Type} (sh : Shape α) : GoodShape sh := by
  induction sh with
  | seq xs => exact good_seq xs
  | skipFirst src ih => exact good_skipFirst ih
  | skipWhile p src ih => exact good_skipWhile ih
  | take src ih => exact good_take ih
  | takeWhile p src ih => exact good_takeWhile ih
  | filter p src ih => exact good_filter ih
  | map f src ih => exact good_map ih
  | inspect src ih => exact good_inspect ih

theorem countLoop_spec {α σ : Type} {adv : σ → Bool × σ} {g : σ → Option α × σ}
    {r : σ → Nat} {m : σ → List α} (G : GoodFns adv g r m) :
    ∀ (fuel : Nat) (s : σ), r s < fuel →
      (countLoop adv fuel s).1 = (m s).length ∧
      m (countLoop adv fuel s).2 = [] := by
  intro fuel
  induction fuel with
  | zero => intro s hs; omega
  | succ fuel ih =>
      intro s hs
      simp only [countLoop]
      cases hb : (adv s).1 with
      | true =>
          simp only [reduceIte]
          obtain ⟨x, hx, hm⟩ := G.adv_true s hb
          have hlt := G.r_adv_lt s hb
          obtain ⟨ih1, ih2⟩ := ih (adv s).2 (by omega)
          constructor
          · rw [ih1, hm]
            simp
          · exact ih2
      | false =>
          simp only [Bool.false_eq_true, if_false]
          obtain ⟨h1, h2⟩ := G.adv_false s hb
          rw [h1, h2]
          simp

theorem collectLoop_spec {α σ : Type} {adv : σ → Bool × σ} {g : σ → Option α × σ}
    {r : σ → Nat} {m : σ → List α} (G : GoodFns adv g r m) :
    ∀ (fuel : Nat) (s : σ), r s < fuel →
      (collectLoop adv g fuel s).1 = m s ∧
      m (collectLoop adv g fuel s).2 = [] := by
  intro fuel
  induction fuel with
  | zero => intro s hs; omega
  | succ fuel ih =>
      intro s hs
      simp only [collectLoop]
      cases hb : (adv s).1 with
      | true =>
          simp only [reduceIte]
          obtain ⟨x, hx, hm⟩ := G.adv_true s hb
          have hlt := G.r_adv_lt s hb
          have hrg := G.r_get (adv s).2
          have hmg := G.m_get (adv s).2
          obtain ⟨ih1, ih2⟩ := ih (g (adv s).2).2 (by omega)
          simp only [hx]
          constructor
          · rw [ih1, hm, hmg]
          · exact ih2
      | false =>
          simp only [Bool.false_eq_true, if_false]
          obtain ⟨h1, h2⟩ := G.adv_false s hb
          rw [h1, h2]
          simp

theorem allLoop_spec {α σ : Type} {adv : σ → Bool × σ} {g : σ → Option α × σ}
    {r : σ → Nat} {m : σ → List α} (G : GoodFns adv g r m) (p : α → Bool) :
    ∀ (fuel : Nat) (s : σ), r s < fuel →
      (allLoop adv g p fuel s).1 = (m s).all p := by
  intro fuel
  induction fuel with
  | zero => intro s hs; omega
  | succ fuel ih =>
      intro s hs
      simp only [allLoop]
      cases hb : (adv s).1 with
      | true =>
          simp only [reduceIte]
          obtain ⟨x, hx, hm⟩ := G.adv_true s hb
          have hlt := G.r_adv_lt s hb
          have hrg := G.r_get (adv s).2
          have hmg := G.m_get (adv s).2
          simp only [hx]
          cases hp : p x with
          | true =>
              simp only [reduceIte]
              rw [ih (g (adv s).2).2 (by omega), hm, hmg]
              simp [hp]
          | false =>
              simp only [Bool.false_eq_true, if_false]
              rw [hm]
              simp [hp]
      | false =>
          simp only [Bool.false_eq_true, if_false]
          obtain ⟨h1, h2⟩ := G.adv_false s hb
          rw [h1]
          simp

theorem Handle.count_spec {α : Type} (h : Handle α) :
    (h.count).1 = h.model.length ∧ (h.count).2.model = [] :=
  countLoop_spec (good h.shape) (h.rem + 1) h.state (Nat.lt_succ_self _)

theorem Handle.collect_spec {α : Type} (h : Handle α) :
    (h.collect).1 = h.model ∧ (h.collect).2.model = [] :=
  collectLoop_spec (good h.shape) (h.rem + 1) h.state (Nat.lt_succ_self _)

theorem Handle.all_spec {α : Type} (h : Handle α) (p : α → Bool) :
    (h.allS p).1 = h.model.all p :=
  allLoop_spec (good h.shape) p (h.rem + 1) h.state (Nat.lt_succ_self _)

theorem Handle.next_spec {α : Type} (h : Handle α) :
    (h.next).1 = h.model.head? ∧ (h.next).2.model = h.model.tail := by
  simp only [Handle.next, Handle.model]
  cases hb : (advance h.shape h.state).1 with
  | true =>
      obtain ⟨x, hx, hm⟩ := (good h.shape).adv_true h.state hb
      have hmg := (good h.shape).m_get (advance h.shape h.state).2
      refine ⟨?_, ?_⟩
      · show (get h.shape (advance h.shape h.state).2).1 =
          (Streams.model h.shape h.state).head?
        rw [hx, hm]
        rfl
      · show Streams.model h.shape (get h.shape (advance h.shape h.state).2).2 =
          (Streams.model h.shape h.state).tail
        rw [hmg, hm]
        rfl
  | false =>
      obtain ⟨h1, h2⟩ := (good h.shape).adv_false h.state hb
      refine ⟨?_, ?_⟩
      · show (none : Option α) = (Streams.model h.shape h.state).head?
        rw [h1]
        rfl
      · show Streams.model h.shape (advance h.shape h.state).2 =
          (Streams.model h.shape h.state).tail
        rw [h2, h1]
        rfl

theorem Handle.nth_spec {α : Type} :
    ∀ (n : Nat) (h : Handle α), (h.nth n).1 = h.model[n]? := by
  intro n
  induction n with
  | zero =>
      intro h
      rw [show h.nth 0 = h.next from rfl, (Handle.next_spec h).1]
      cases hl : h.model <;> simp [hl]
  | succ n ih =>
      intro h
      simp only [Handle.nth]
      cases hb : (advance h.shape h.state).1 with
      | true =>
          obtain ⟨x, hx, hm⟩ := (good h.shape).adv_true h.state hb
          have hih := ih ⟨h.shape, (advance h.shape h.state).2⟩
          show (Handle.nth ⟨h.shape, (advance h.shape h.state).2⟩ n).1 =
            h.model[n + 1]?
          rw [hih]
          show (Streams.model h.shape (advance h.shape h.state).2)[n]? =
            (Streams.model h.shape h.state)[n + 1]?
          rw [hm]
          simp
      | false =>
          obtain ⟨h1, h2⟩ := (good h.shape).adv_false h.state hb
          have hn := (Handle.next_spec ⟨h.shape, (advance h.shape h.state).2⟩).1
          show (Handle.next ⟨h.shape, (advance h.shape h.state).2⟩).1 =
            h.model[n + 1]?
          rw [hn]
          show (Streams.model h.shape (advance h.shape h.state).2).head? =
            (Streams.model h.shape h.state)[n + 1]?
          rw [h2, h1]
          simp

theorem Handle.model_nil_next {α : Type} (h : Handle α) (hm : h.model = []) :
    (h.next).1 = none ∧ (h.next).2.model = [] := by
  obtain ⟨hn1, hn2⟩ := Handle.next_spec h
  rw [hm] at hn1 hn2
  exact ⟨hn1, hn2⟩

theorem Handle.afterNexts_nil {α : Type} :
    ∀ (k : Nat) (h : Handle α), h.model = [] → (h.afterNexts k).model = [] := by
  intro k
  induction k with
  | zero => intro h hm; exact hm
  | succ k ih =>
      intro h hm
      exact ih (h.next).2 (Handle.model_nil_next h hm).2

theorem Handle.next_none_model_nil {α : Type} (h : Handle α)
    (hn : (h.next).1 = none) : (h.next).2.model = [] := by
  obtain ⟨hn1, hn2⟩ := Handle.next_spec h
  rw [hn] at hn1
  cases hl : h.model with
  | nil => rw [hn2, hl]; rfl
  | cons a l => rw [hl] at hn1; simp at hn1

/-- Iterated `advance`, keeping only the state: the extractor state after `k`
further `advance` calls. -/
def advanceSteps {α : Type} (sh : Shape α) : Nat → State sh → State sh
  | 0, s => s
  | k + 1, s => advanceSteps sh k (advance sh s).2

/-- Once `advance` has reported exhaustion, the very next `advance` call also
reports exhaustion (for every stage of the library). -/
theorem advance_false_persist {α : Type} (sh : Shape α) (s : State sh)
    (h : (advance sh s).1 = false) :
    (advance sh (advance sh s).2).1 = false := by
  obtain ⟨h1, h2⟩ := (good sh).adv_false s h
  cases hb : (advance sh (advance sh s).2).1 with
  | false => rfl
  | true =>
      obtain ⟨x, hx, hm⟩ := (good sh).adv_true _ hb
      rw [h2] at hm
      simp at hm

/-- A handle whose denotation is empty keeps answering `none` to every later
`next()` call. -/
theorem Handle.nil_forever {α : Type} (h : Handle α) (hm : h.model = [])
    (k : Nat) : ((h.afterNexts k).next).1 = none :=
  (Handle.model_nil_next _ (Handle.afterNexts_nil k h hm)).1

/-- The `countLoop` run over a map stage never touches the map stage's
invocation counter: `count` only calls `advance`, never `get`. -/
theorem countLoop_map_counter {α β : Type} (f : α → β) (src : Shape α) :
    ∀ (fuel c : Nat) (s0 : State src),
      ((countLoop (advance (Shape.map f src)) fuel (c, s0)).2).1 = c := by
  intro fuel
  induction fuel with
  | zero => intro c s0; rfl
  | succ fuel ih =>
      intro c s0
      simp only [countLoop, advance]
      cases hb : (advance src s0).1 with
      | true =>
          simp only [reduceIte]
          exact ih c (advance src s0).2
      | false => simp only [Bool.false_eq_true, if_false]

/-- The `countLoop` run over an inspect stage never touches the inspect
stage's invocation counter. -/
theorem countLoop_inspect_counter {α : Type} (src : Shape α) :
    ∀ (fuel c : Nat) (s0 : State src),
      ((countLoop (advance (Shape.inspect src)) fuel (c, s0)).2).1 = c := by
  intro fuel
  induction fuel with
  | zero => intro c s0; rfl
  | succ fuel ih =>
      intro c s0
      simp only [countLoop, advance]
      cases hb : (advance src s0).1 with
      | true =>
          simp only [reduceIte]
          exact ih c (advance src s0).2
      | false => simp only [Bool.false_eq_true, if_false]

/-- Every prefix of `S` all of whose elements satisfy `p` is no longer than
`S.takeWhile p`. -/
theorem takeWhile_longest {α : Type} (p : α → Bool) :
    ∀ (S : List α) (k : Nat), k ≤ S.length → (∀ x ∈ S.take k, p x = true) →
      k ≤ (S.takeWhile p).length := by
  intro S
  induction S with
  | nil =>
      intro k hk _
      simpa using hk
  | cons a S ih =>
      intro k hk hall
      cases k with
      | zero => exact Nat.zero_le _
      | succ k =>
          have hpa : p a = true := hall a (by simp)
          have hrec := ih k (by simpa using hk)
            (fun x hx => hall x (by simp [hx]))
          simp only [List.takeWhile_cons, hpa, if_true, List.length_cons]
          omega

/-- C2: for every sequence `S` and every `n`, `from(S).take(n).count()` equals
`min n |S|`, and in particular is at most `n`. -/
theorem claim2_take_count {α : Type} (S : List α) (n : Nat) :
    ((fromList S).takeS n).count.1 = min n S.length ∧
    ((fromList S).takeS n).count.1 ≤ n := by
  have h := (Handle.count_spec ((fromList S).takeS n)).1
  have hlen : ((fromList S).takeS n).model.length = min n S.length := by
    show (S.take n).length = min n S.length
    simp
  rw [h, hlen]
  exact ⟨rfl, Nat.min_le_left _ _⟩

/-- C3: `skipWhile(p)` drops the longest all-`p` prefix: the first element
failing `p` is the one emitted by the next `advance`, everything after it is
passed through unchanged (collect returns `S.dropWhile p`, which keeps later
`p`-true elements), and once `advance` has returned `false` (in particular
when upstream exhausts while still skipping) every later `advance` returns
`false` as well. -/
theorem claim3_skipWhile {α : Type} (S : List α) (p : α → Bool) :
    ((fromList S).skipWhileS p).next.1 = (S.dropWhile p).head? ∧
    ((fromList S).skipWhileS p).collect.1 = S.dropWhile p ∧
    (∀ s : State (Shape.skipWhile p (Shape.seq S)),
      (advance (Shape.skipWhile p (Shape.seq S)) s).1 = false →
      (advance (Shape.skipWhile p (Shape.seq S))
        (advance (Shape.skipWhile p (Shape.seq S)) s).2).1 = false) := by
  refine ⟨?_, ?_, fun s hs => advance_false_persist _ s hs⟩
  · rw [(Handle.next_spec ((fromList S).skipWhileS p)).1]
    rfl
  · rw [(Handle.collect_spec ((fromList S).skipWhileS p)).1]
    rfl

/-- C3 witness: on `S = [1,2,1,5]` with `p = (x < 3)`, the stream emits
`[5]`; on an all-`p` sequence the first advance fails and keeps failing. -/
theorem claim3_skipWhile_witness :
    (((fromList [1, 2, 1, 5]).skipWhileS (fun x : Nat => decide (x < 3))).collect.1 =
      [5]) ∧
    (advance (Shape.skipWhile (fun x : Nat => decide (x < 3)) (Shape.seq [1, 2]))
      (advance (Shape.skipWhile (fun x : Nat => decide (x < 3)) (Shape.seq [1, 2]))
        ((true, (0, 0)) : Bool × (Nat × Nat))).2).1 = false := by
  constructor
  · rw [(claim3_skipWhile [1, 2, 1, 5] (fun x : Nat => decide (x < 3))).2.1]
    rfl
  · exact (claim3_skipWhile [1, 2] (fun x : Nat => decide (x < 3))).2.2
      (show State (Shape.skipWhile (fun x : Nat => decide (x < 3))
        (Shape.seq [1, 2])) from (true, (0, 0))) (by decide)

/-- C4: once the Take stage's internal count has reached zero, `advance`
returns `false` without touching the upstream state at all (the result state
is exactly `(0, s)`), and iterating `advance` any number of times leaves the
count at zero and keeps returning `false`. -/
theorem claim4_take_exhausted {α : Type} (sh : Shape α) (s : State sh) :
    advance (Shape.take sh) (0, s) = (false, (0, s)) ∧
    ∀ k, advanceSteps (Shape.take sh) k (0, s) = (0, s) ∧
      (advance (Shape.take sh) (advanceSteps (Shape.take sh) k (0, s))).1 =
        false := by
  refine ⟨rfl, ?_⟩
  intro k
  induction k with
  | zero => exact ⟨rfl, rfl⟩
  | succ k ih => exact ⟨ih.1, ih.2⟩

/-- C5: `map(f)` then `collect` equals element-wise `f` over the `collect`
of the unmapped stream: the same list mapped, hence the same length and at
every position the mapped element is `f` of the unmapped one. -/
theorem claim5_map_collect {α β : Type} (S : List α) (f : α → β) :
    ((fromList S).mapS f).collect.1 = ((fromList S).collect.1).map f ∧
    ((fromList S).mapS f).collect.1.length = (fromList S).collect.1.length ∧
    ∀ i : Nat, (((fromList S).mapS f).collect.1)[i]? =
      (((fromList S).collect.1)[i]?).map f := by
  have h1 := (Handle.collect_spec ((fromList S).mapS f)).1
  have h2 := (Handle.collect_spec (fromList S)).1
  have hmap : ((fromList S).mapS f).collect.1 = ((fromList S).collect.1).map f := by
    rw [h1, h2]
    rfl
  refine ⟨hmap, by rw [hmap]; simp, fun i => by rw [hmap]; simp⟩

/-- C6: exhaustion is idempotent: once `next()` has returned `none`, or
`count()`/`collect()` has run a handle to completion, every subsequent
`next()` call on the resulting handle returns `none`. -/
theorem claim6_exhaustion_idempotent {α : Type} (h : Handle α) :
    ((h.next).1 = none →
      ∀ k, (((h.next).2.afterNexts k).next).1 = none) ∧
    (∀ k, (((h.count).2.afterNexts k).next).1 = none) ∧
    (∀ k, (((h.collect).2.afterNexts k).next).1 = none) := by
  refine ⟨fun hn k => ?_, fun k => ?_, fun k => ?_⟩
  · exact Handle.nil_forever _ (Handle.next_none_model_nil h hn) k
  · exact Handle.nil_forever _ (Handle.count_spec h).2 k
  · exact Handle.nil_forever _ (Handle.collect_spec h).2 k

/-- C6 witness: on the empty sequence, `next()` returns `none` and keeps
returning `none`; after `count()` and `collect()` on `[1,2]`, `next()`
returns `none`. -/
theorem claim6_witness :
    ((fromList ([] : List Nat)).next.1 = none) ∧
    ((((fromList ([] : List Nat)).next).2.afterNexts 2).next).1 = none ∧
    ((((fromList [1, 2]).count).2.afterNexts 1).next).1 = none ∧
    ((((fromList [1, 2]).collect).2.afterNexts 0).next).1 = none :=
  ⟨by decide,
    (claim6_exhaustion_idempotent (fromList ([] : List Nat))).1 (by decide) 2,
    (claim6_exhaustion_idempotent (fromList [1, 2])).2.1 1,
    (claim6_exhaustion_idempotent (fromList [1, 2])).2.2 0⟩

/-- C7: `nth(n)` returns the `(n+1)`-th element the handle would still emit
(`none` when fewer than `n+1` remain); in particular on `from(S)` it returns
`S[n]?`. -/
theorem claim7_nth {α : Type} :
    (∀ (h : Handle α) (n : Nat), (h.nth n).1 = h.model[n]?) ∧
    (∀ (S : List α) (n : Nat), ((fromList S).nth n).1 = S[n]?) := by
  refine ⟨fun h n => Handle.nth_spec n h, fun S n => ?_⟩
  rw [Handle.nth_spec n (fromList S)]
  rfl

/-- C8: every element that the Filter stage lets through satisfies its
predicate, so `from(S).filter(p).all(p)` is `true` for every `S` and `p`
(including the empty stream, on which `all` is vacuously `true`). -/
theorem claim8_filter_all {α : Type} (S : List α) (p : α → Bool) :
    (((fromList S).filterS p).allS p).1 = true := by
  rw [Handle.all_spec]
  show (S.filter p).all p = true
  simp only [List.all_eq_true]
  intro x hx
  exact (List.mem_filter.mp hx).2

/-- C9: `count()` never calls `get`, so `from(S).map(f).count()` and
`from(S).inspect(c).count()` both equal `from(S).count()` and leave the
map/inspect invocation counters at zero: neither `f` nor the inspector is
ever invoked during the count. -/
theorem claim9_count_only_advance {α β : Type} (S : List α) (f : α → β) :
    ((fromList S).mapS f).count.1 = (fromList S).count.1 ∧
    mapCalls ((fromList S).mapS f).count.2.state = 0 ∧
    ((fromList S).inspectS).count.1 = (fromList S).count.1 ∧
    inspectCalls ((fromList S).inspectS).count.2.state = 0 := by
  refine ⟨?_, ?_, ?_, ?_⟩
  · rw [(Handle.count_spec ((fromList S).mapS f)).1,
      (Handle.count_spec (fromList S)).1]
    show (S.map f).length = S.length
    simp
  · exact countLoop_map_counter f (Shape.seq S) _ 0 (0, 0)
  · rw [(Handle.count_spec ((fromList S).inspectS)).1,
      (Handle.count_spec (fromList S)).1]
    rfl
  · exact countLoop_inspect_counter (Shape.seq S) _ 0 (0, 0)

/-- Exact run of the `collect` loop over `takeWhile(p)` on a sequence
extractor positioned at index `nxt`: it returns the `takeWhile` of the rest
of the sequence, and the sequence cursor ends just past the first failing
element (so that element was consumed), or at the end of the sequence. -/
theorem collectLoop_takeWhile_seq {α : Type} (S : List α) (p : α → Bool) :
    ∀ (fuel cur nxt : Nat), S.length - nxt < fuel → nxt ≤ S.length →
      (collectLoop (advance (Shape.takeWhile p (Shape.seq S)))
          (get (Shape.takeWhile p (Shape.seq S))) fuel
          ((true, (cur, nxt)) : Bool × (Nat × Nat))).1 =
        (S.drop nxt).takeWhile p ∧
      rem (Shape.takeWhile p (Shape.seq S))
          (collectLoop (advance (Shape.takeWhile p (Shape.seq S)))
            (get (Shape.takeWhile p (Shape.seq S))) fuel
            ((true, (cur, nxt)) : Bool × (Nat × Nat))).2 =
        S.length - (nxt + ((S.drop nxt).takeWhile p).length + 1) := by
  intro fuel
  induction fuel with
  | zero => intro cur nxt h1 h2; omega
  | succ fuel ih =>
      intro cur nxt hfuel hle
      by_cases hc : nxt < S.length
      · have hdrop : S.drop nxt = S[nxt] :: S.drop (nxt + 1) :=
          List.drop_eq_getElem_cons hc
        have hadv : advance (Shape.takeWhile p (Shape.seq S))
            ((true, (cur, nxt)) : Bool × (Nat × Nat)) =
            (p S[nxt], (p S[nxt], (nxt, nxt + 1))) := by
          simp only [advance, get, reduceIte, if_pos hc,
            List.getElem?_eq_getElem hc]
        have hgv : get (Shape.takeWhile p (Shape.seq S))
            ((true, (nxt, nxt + 1)) : Bool × (Nat × Nat)) =
            (some S[nxt], (true, (nxt, nxt + 1))) := by
          simp only [get, List.getElem?_eq_getElem hc]
        cases hp : p S[nxt] with
        | true =>
            rw [hp] at hadv
            simp only [collectLoop, hadv, hgv, reduceIte]
            obtain ⟨ih1, ih2⟩ := ih nxt (nxt + 1) (by omega) (by omega)
            rw [hdrop, List.takeWhile_cons, hp]
            simp only [reduceIte]
            constructor
            · rw [ih1]
            · rw [ih2]
              simp only [List.length_cons]
              omega
        | false =>
            rw [hp] at hadv
            simp only [collectLoop, hadv, Bool.false_eq_true, if_false, rem]
            rw [hdrop, List.takeWhile_cons, hp]
            simp only [Bool.false_eq_true, if_false, List.length_nil]
            exact ⟨trivial, trivial⟩
      · have hnil : S.drop nxt = [] := List.drop_eq_nil_of_le (by omega)
        have hadv : advance (Shape.takeWhile p (Shape.seq S))
            ((true, (cur, nxt)) : Bool × (Nat × Nat)) =
            (false, (false, (cur, nxt))) := by
          simp only [advance, reduceIte, Bool.false_eq_true, if_false,
            if_neg hc]
        simp only [collectLoop, hadv, Bool.false_eq_true, if_false, rem]
        rw [hnil]
        simp only [List.takeWhile_nil, List.length_nil]
        exact ⟨trivial, by omega⟩

/-- C1: `from(S).takeWhile(p).collect()` emits exactly the longest prefix of
`S` whose elements all satisfy `p`: the result is `S.takeWhile p`, which is a
prefix of `S`, all of whose elements satisfy `p`, and no all-`p` prefix of
`S` is longer; moreover the number of elements consumed from the upstream
sequence is `min (|prefix| + 1) |S|` — the first failing element (when there
is one) is consumed from upstream but not emitted, and nothing after it is
consumed or emitted. -/
theorem claim1_takeWhile {α : Type} (S : List α) (p : α → Bool) :
    ((fromList S).takeWhileS p).collect.1 = S.takeWhile p ∧
    (∃ t, ((fromList S).takeWhileS p).collect.1 ++ t = S) ∧
    (∀ x ∈ ((fromList S).takeWhileS p).collect.1, p x = true) ∧
    (∀ k, k ≤ S.length → (∀ x ∈ S.take k, p x = true) →
      k ≤ ((fromList S).takeWhileS p).collect.1.length) ∧
    S.length - ((fromList S).takeWhileS p).collect.2.rem =
      min ((S.takeWhile p).length + 1) S.length := by
  have hcol : ((fromList S).takeWhileS p).collect.1 = S.takeWhile p := by
    rw [(Handle.collect_spec ((fromList S).takeWhileS p)).1]
    rfl
  have hplen : (S.takeWhile p).length + (S.dropWhile p).length = S.length := by
    rw [← List.length_append, List.takeWhile_append_dropWhile p S]
  refine ⟨hcol, ⟨S.dropWhile p, ?_⟩, fun x hx => ?_, fun k hk hall => ?_, ?_⟩
  · rw [hcol]
    exact List.takeWhile_append_dropWhile p S
  · rw [hcol] at hx
    exact List.mem_takeWhile_imp hx
  · rw [hcol]
    exact takeWhile_longest p S k hk hall
  · have hspec := (collectLoop_takeWhile_seq S p (S.length + 1) 0 0
      (by omega) (by omega)).2
    have hrem : ((fromList S).takeWhileS p).collect.2.rem =
        S.length - (0 + (S.takeWhile p).length + 1) := hspec
    rw [hrem]
    omega

/-- C1 witness: on `S = [5,6,1,2,9]` with `p = (x > 3)`, collect returns
`[5,6]` and every all-`p` prefix has length at most 2. -/
theorem claim1_takeWhile_witness :
    (((fromList [5, 6, 1, 2, 9]).takeWhileS
        (fun x : Nat => decide (3 < x))).collect.1 = [5, 6]) ∧
    2 ≤ (((fromList [5, 6, 1, 2, 9]).takeWhileS
        (fun x : Nat => decide (3 < x))).collect.1).length :=
  ⟨by
      rw [(claim1_takeWhile [5, 6, 1, 2, 9] (fun x : Nat => decide (3 < x))).1]
      rfl,
    (claim1_takeWhile [5, 6, 1, 2, 9]
      (fun x : Nat => decide (3 < x))).2.2.2.1 2 (by decide) (by decide)⟩

end Streams
